import Mathlib

/-
Verification development for the `matchers` package (internal/matchers/matchers.go):
a Gomega-style matcher that compares two Kubernetes objects by computing a JSON
merge-patch diff and filtering it through allow-paths and ignore-paths.

Modelling conventions:
- JSON values appearing in a diff map are modelled by `DVal`:
  `prim n` stands for any non-object JSON value (number, string, bool, array),
  `null` for JSON null (the merge-patch deletion marker), and
  `obj entries` for a JSON object, modelled as an association list
  (Go's `map[string]interface{}`; maps produced by `json.Unmarshal` have
  distinct keys, and Go map iteration order is irrelevant to the functions
  modelled here, which treat each key independently).
- A Go panic (out-of-range slice index such as `path[0]` on an empty path)
  is modelled by `Option`: `none` is a panic, `some` a normal return.
- `json.Marshal`/`json.Unmarshal` round-trips inside `filterDiff` are modelled
  as the identity, and `bytes.Equal(diff, []byte("\x7b\x7d"))` as emptiness of
  the diff map.
-/

set_option maxHeartbeats 1000000

namespace Matchers

/-- A JSON value as it appears in an unmarshalled merge-patch diff:
an opaque non-object scalar, JSON null, or a nested object. -/
inductive DVal where
  | prim : Int → DVal
  | null : DVal
  | obj : List (String × DVal) → DVal

/-- The Go type `map[string]interface{}` holding a (sub)diff, as an association list. -/
abbrev DMap := List (String × DVal)

/-- A field path, as in the Go type `[]string`. -/
abbrev Path := List String

/-- Go `diffMap[k]` (first binding wins; Go maps have unique keys). -/
def lookupKey (k : String) : DMap → Option DVal
  | [] => none
  | e :: rest => if e.1 = k then some e.2 else lookupKey k rest

/-- Go `delete(diffMap, k)`. -/
def eraseKey (k : String) : DMap → DMap
  | [] => []
  | e :: rest => if e.1 = k then eraseKey k rest else e :: eraseKey k rest

/-- In-place replacement of the value bound to `k` (Go mutates the nested map
obtained from `diffMap[k]`, so the binding for `k` now holds the mutated map). -/
def setKey (k : String) (v : DVal) : DMap → DMap
  | [] => []
  | e :: rest => (if e.1 = k then (k, v) else e) :: setKey k v rest

/-- Translation of `removePath` (matchers.go): excludes one ignore path from the
diff map. Length 0 is a no-op, length 1 deletes the key, longer paths descend
into a nested map (no-op when the key is absent or not a map) and delete the
key afterwards when the nested map became empty. -/
def removePath (diffMap : DMap) (path : Path) : DMap :=
  match path with
  | [] => diffMap
  | [k] => eraseKey k diffMap
  | k :: t₁ :: t₂ =>
    match lookupKey k diffMap with
    | some (DVal.obj nested) =>
      let nested' := removePath nested (t₁ :: t₂)
      if nested'.isEmpty then eraseKey k diffMap
      else setKey k (DVal.obj nested') diffMap
    | _ => diffMap

/-- The ignore pass of `filterDiff`: `for _, path := range ignorePaths` applying
`removePath` in list order. -/
def applyIgnorePaths (diffMap : DMap) (ignorePaths : List Path) : DMap :=
  ignorePaths.foldl removePath diffMap

/-- The inner loop `for _, path := range allowPaths` of `filterDiffMap` deciding
whether key `k` is allowed: compares `k == path[0]` and breaks at the first hit.
`none` models the Go panic on indexing `path[0]` of a zero-length path. -/
def checkAllowed (k : String) : List Path → Option Bool
  | [] => some false
  | p :: rest =>
    match p with
    | [] => none
    | s :: _ => if s = k then some true else checkAllowed k rest

/-- The second loop of `filterDiffMap` collecting `path[1:]` of every allow path
with `k == path[0] && len(path) > 1` (no break, so any zero-length path panics). -/
def collectNested (k : String) : List Path → Option (List Path)
  | [] => some []
  | p :: rest =>
    match p with
    | [] => none
    | s :: tl =>
      match collectNested k rest with
      | none => none
      | some r => some (if s = k ∧ tl ≠ [] then tl :: r else r)

mutual

/-- Translation of `filterDiffMap` (matchers.go): limits the diff map to the
allowed paths. The fast path `len(allowPaths) == 1 && allowPaths[0][0] == "*"`
returns the diff map unchanged; `none` models the panic when the single allow
path is zero-length. -/
def filterDiffMap (diffMap : DMap) (allowPaths : List Path) : Option DMap :=
  match allowPaths with
  | [[]] => none
  | [s :: tl] =>
    if s = "*" then some diffMap else processEntries diffMap [s :: tl]
  | _ => processEntries diffMap allowPaths
termination_by (sizeOf diffMap, 1)

/-- The `for k, m := range diffMap` loop body of `filterDiffMap`, applied to every
entry of the diff map (Go iteration order does not affect the outcome: entries
are processed independently and a panic anywhere aborts the whole call). -/
def processEntries (entries : DMap) (allowPaths : List Path) : Option DMap :=
  match entries with
  | [] => some []
  | (k, m) :: rest =>
    (processEntries rest allowPaths).bind (fun tail =>
      (checkAllowed k allowPaths).bind (fun allowed =>
        if allowed then
          match m with
          | DVal.obj nested =>
            (collectNested k allowPaths).bind (fun nestedPaths =>
              if nestedPaths.isEmpty then some ((k, DVal.obj nested) :: tail)
              else
                (filterDiffMap nested nestedPaths).bind (fun nested' =>
                  if nested'.isEmpty then some tail
                  else some ((k, DVal.obj nested') :: tail)))
          | v => some ((k, v) :: tail)
        else some tail))
termination_by (sizeOf entries, 0)

end

/-- Translation of `filterDiff` (matchers.go): allow pass then ignore pass.
The JSON unmarshal/marshal round-trip is the identity in this model. -/
def filterDiff (diff : DMap) (allowPaths ignorePaths : List Path) : Option DMap :=
  match filterDiffMap diff allowPaths with
  | none => none
  | some dm => some (applyIgnorePaths dm ignorePaths)

/-- Structural equality test on diff values, standing for Go's deep equality of
unmarshalled JSON as used by the merge-patch builder. -/
def valBeq : DVal → DVal → Bool
  | DVal.prim a, DVal.prim b => a == b
  | DVal.null, DVal.null => true
  | DVal.obj [], DVal.obj [] => true
  | DVal.obj ((k₁, v₁) :: r₁), DVal.obj ((k₂, v₂) :: r₂) =>
    k₁ == k₂ && valBeq v₁ v₂ && valBeq (DVal.obj r₁) (DVal.obj r₂)
  | _, _ => false

mutual

/-- Modelled from the spec: the external merge-patch builder
(`jsonpatch.CreateMergePatch`, not part of this repository). The delta contains
only changed or added keys with their new value (recursing into keys whose
values are both objects) and removed keys carrying the null deletion marker. -/
def mergePatch (original actual : DMap) : DMap :=
  mergePatchChanged original actual
    ++ actual.filter (fun e => (lookupKey e.1 original).isNone)
termination_by (sizeOf original, 1)

/-- Modelled from the spec: the changed/removed part of the merge patch, walking
the keys of `original`. -/
def mergePatchChanged (original actual : DMap) : DMap :=
  match original with
  | [] => []
  | (k, ov) :: rest =>
    let tail := mergePatchChanged rest actual
    match lookupKey k actual with
    | none => (k, DVal.null) :: tail
    | some av =>
      if valBeq ov av then tail
      else
        match ov, av with
        | DVal.obj om, DVal.obj am =>
          let sub := mergePatch om am
          if sub.isEmpty then tail else (k, DVal.obj sub) :: tail
        | _, _ => (k, av) :: tail
termination_by (sizeOf original, 0)

end

mutual

/-- A diff value free of empty-object remnants: no `obj []` occurs anywhere in it. -/
def valNoEmpty : DVal → Bool
  | DVal.prim _ => true
  | DVal.null => true
  | DVal.obj m => !m.isEmpty && mapNoEmpty m
termination_by v => (sizeOf v, 0)

/-- A diff map all of whose values are free of empty-object remnants
(the top-level map itself may be empty: that is the equal-objects case). -/
def mapNoEmpty : DMap → Bool
  | [] => true
  | (_, v) :: rest => valNoEmpty v && mapNoEmpty rest
termination_by m => (sizeOf m, 1)

end

/-- The Go struct `MatchOptions`. -/
structure MatchOptions where
  ignorePaths : List Path
  allowPaths : List Path

/-- A `MatchOption`: either `IgnorePaths` or `AllowPaths` from matchers.go. -/
inductive MatchOption where
  | IgnorePaths : List Path → MatchOption
  | AllowPaths : List Path → MatchOption

/-- The `ApplyToMatcher` implementations: both append to the respective list. -/
def applyToMatcher (opts : MatchOptions) : MatchOption → MatchOptions
  | MatchOption.IgnorePaths l => { opts with ignorePaths := opts.ignorePaths ++ l }
  | MatchOption.AllowPaths l => { opts with allowPaths := opts.allowPaths ++ l }

/-- Translation of `MatchOptions.ApplyOptions`. -/
def ApplyOptions (opts : MatchOptions) (l : List MatchOption) : MatchOptions :=
  l.foldl applyToMatcher opts

/-- The Go struct `Matcher`. A `runtime.Object` operand is modelled as
`Option DMap`: `none` is a nil object, `some` an object whose JSON
serialization is the given map. The mutable `diff` field is omitted: it only
feeds the failure-message methods, which are out of scope. -/
structure Matcher where
  original : Option DMap
  options : MatchOptions

/-- Translation of `EqualObject`: applies the options and defaults the allow
paths to the single wildcard path when none were supplied. -/
def EqualObject (original : Option DMap) (opts : List MatchOption) : Matcher :=
  let matchOptions := ApplyOptions (MatchOptions.mk [] []) opts
  let matchOptions :=
    if matchOptions.allowPaths = [] then
      { matchOptions with allowPaths := [["*"]] }
    else matchOptions
  Matcher.mk original matchOptions

/-- Translation of `Matcher.Match`, generic in the diff builder so that the nil
cases are visibly independent of it. Result: `none` models a panic inside
filtering, `some (Except.error e)` an error return `(false, e)`, and
`some (Except.ok b)` the return `(b, nil)`. Serialization of the operands is
the identity in this model (it never fails on model objects). -/
def MatchWith (diffFn : DMap → DMap → DMap) (m : Matcher) (actual : Option DMap) :
    Option (Except String Bool) :=
  match actual, m.original with
  | none, none => some (Except.ok true)
  | none, some _ => some (Except.error "can not compare an object with a nil")
  | some _, none => some (Except.error "can not compare an object with a nil")
  | some a, some o =>
    match filterDiff (diffFn o a) m.options.allowPaths m.options.ignorePaths with
    | none => none
    | some fd => some (Except.ok fd.isEmpty)

/-- Translation of `Matcher.Match` with the merge-patch diff builder, mirroring
`calculateDiff` followed by the emptiness test. -/
def Matcher.Match (m : Matcher) (actual : Option DMap) : Option (Except String Bool) :=
  MatchWith mergePatch m actual


/-! Basic facts about the key-level map operations. -/

theorem lookupKey_eraseKey_self (a : String) (m : DMap) :
    lookupKey a (eraseKey a m) = none := by
  induction m with
  | nil => rfl
  | cons e rest ih =>
    obtain ⟨ek, ev⟩ := e
    by_cases hb : ek = a
    · simp [eraseKey, hb, ih]
    · simp [eraseKey, lookupKey, hb, ih]

theorem lookupKey_eraseKey_ne (a b : String) (h : a ≠ b) (m : DMap) :
    lookupKey a (eraseKey b m) = lookupKey a m := by
  induction m with
  | nil => rfl
  | cons e rest ih =>
    obtain ⟨ek, ev⟩ := e
    by_cases hb : ek = b
    · subst hb
      simp [eraseKey, lookupKey, Ne.symm h, ih]
    · by_cases ha : ek = a
      · simp [eraseKey, lookupKey, hb, ha, h]
      · simp [eraseKey, lookupKey, hb, ha, ih]

theorem lookupKey_setKey_self (a : String) (v : DVal) (m : DMap) :
    lookupKey a (setKey a v m) = (lookupKey a m).map (fun _ => v) := by
  induction m with
  | nil => rfl
  | cons e rest ih =>
    obtain ⟨ek, ev⟩ := e
    by_cases ha : ek = a
    · simp [setKey, lookupKey, ha]
    · simp [setKey, lookupKey, ha, ih]

theorem lookupKey_setKey_ne (a b : String) (v : DVal) (h : a ≠ b) (m : DMap) :
    lookupKey a (setKey b v m) = lookupKey a m := by
  induction m with
  | nil => rfl
  | cons e rest ih =>
    obtain ⟨ek, ev⟩ := e
    by_cases hb : ek = b
    · subst hb
      simp [setKey, lookupKey, Ne.symm h, ih]
    · by_cases ha : ek = a
      · simp [setKey, lookupKey, hb, ha, h]
      · simp [setKey, lookupKey, hb, ha, ih]

theorem eraseKey_idem (a : String) (m : DMap) :
    eraseKey a (eraseKey a m) = eraseKey a m := by
  induction m with
  | nil => rfl
  | cons e rest ih =>
    obtain ⟨ek, ev⟩ := e
    by_cases ha : ek = a
    · simp [eraseKey, ha, ih]
    · simp [eraseKey, ha, ih]

theorem eraseKey_comm (a b : String) (m : DMap) :
    eraseKey b (eraseKey a m) = eraseKey a (eraseKey b m) := by
  by_cases hab : a = b
  · subst hab; rfl
  · induction m with
    | nil => rfl
    | cons e rest ih =>
      obtain ⟨ek, ev⟩ := e
      by_cases ha : ek = a
      · have hb : ek ≠ b := by rw [ha]; exact hab
        simp [eraseKey, ha, hb, hab, ih]
      · by_cases hb : ek = b
        · simp [eraseKey, ha, hb, Ne.symm hab, ih]
        · simp [eraseKey, ha, hb, ih]

theorem eraseKey_setKey_self (a : String) (v : DVal) (m : DMap) :
    eraseKey a (setKey a v m) = eraseKey a m := by
  induction m with
  | nil => rfl
  | cons e rest ih =>
    obtain ⟨ek, ev⟩ := e
    by_cases ha : ek = a
    · simp [setKey, eraseKey, ha, ih]
    · simp [setKey, eraseKey, ha, ih]

theorem setKey_setKey_self (a : String) (v w : DVal) (m : DMap) :
    setKey a w (setKey a v m) = setKey a w m := by
  induction m with
  | nil => rfl
  | cons e rest ih =>
    obtain ⟨ek, ev⟩ := e
    by_cases ha : ek = a
    · simp [setKey, ha, ih]
    · simp [setKey, ha, ih]

theorem setKey_setKey_comm_ne (a b : String) (v w : DVal) (h : a ≠ b) (m : DMap) :
    setKey a v (setKey b w m) = setKey b w (setKey a v m) := by
  induction m with
  | nil => rfl
  | cons e rest ih =>
    obtain ⟨ek, ev⟩ := e
    by_cases hb : ek = b
    · have ha : ek ≠ a := by rw [hb]; exact Ne.symm h
      simp [setKey, hb, ha, Ne.symm h, ih]
    · by_cases ha : ek = a
      · simp [setKey, hb, ha, h, ih]
      · simp [setKey, hb, ha, ih]

theorem setKey_eraseKey_ne (a b : String) (v : DVal) (h : a ≠ b) (m : DMap) :
    setKey a v (eraseKey b m) = eraseKey b (setKey a v m) := by
  induction m with
  | nil => rfl
  | cons e rest ih =>
    obtain ⟨ek, ev⟩ := e
    by_cases hb : ek = b
    · have ha : ek ≠ a := by rw [hb]; exact Ne.symm h
      simp [setKey, eraseKey, hb, ha, Ne.symm h, ih]
    · by_cases ha : ek = a
      · have hb2 : a ≠ b := h
        simp [setKey, eraseKey, hb, ha, hb2, ih]
      · simp [setKey, eraseKey, hb, ha, ih]

/-! Facts about `removePath`. -/

theorem removePath_nilMap (p : Path) : removePath ([] : DMap) p = [] := by
  match p with
  | [] => rfl
  | [k] => rfl
  | k :: t₁ :: t₂ => simp [removePath, lookupKey]

theorem lookupKey_removePath_ne (a j : String) (h : a ≠ j) (t : Path) (m : DMap) :
    lookupKey a (removePath m (j :: t)) = lookupKey a m := by
  match t with
  | [] => simpa [removePath] using lookupKey_eraseKey_ne a j h m
  | t₁ :: t₂ =>
    cases hL : lookupKey j m with
    | none => simp [removePath, hL]
    | some v =>
      match v with
      | DVal.prim n => simp [removePath, hL]
      | DVal.null => simp [removePath, hL]
      | DVal.obj nested =>
        by_cases hE : (removePath nested (t₁ :: t₂)).isEmpty
        · simp [removePath, hL, hE, lookupKey_eraseKey_ne a j h m]
        · simp [removePath, hL, hE, lookupKey_setKey_ne a j _ h m]

theorem removePath_eraseKey_ne (b j : String) (h : j ≠ b) (t : Path) (m : DMap) :
    removePath (eraseKey b m) (j :: t) = eraseKey b (removePath m (j :: t)) := by
  match t with
  | [] => simpa [removePath] using eraseKey_comm b j m
  | t₁ :: t₂ =>
    have hlook : lookupKey j (eraseKey b m) = lookupKey j m :=
      lookupKey_eraseKey_ne j b h m
    cases hL : lookupKey j m with
    | none => simp [removePath, hL, hlook]
    | some v =>
      match v with
      | DVal.prim n => simp [removePath, hL, hlook]
      | DVal.null => simp [removePath, hL, hlook]
      | DVal.obj nested =>
        by_cases hE : (removePath nested (t₁ :: t₂)).isEmpty
        · simp [removePath, hL, hlook, hE, eraseKey_comm]
        · simp [removePath, hL, hlook, hE]
          exact setKey_eraseKey_ne j b _ h m

theorem removePath_setKey_ne (b j : String) (v : DVal) (h : j ≠ b) (t : Path) (m : DMap) :
    removePath (setKey b v m) (j :: t) = setKey b v (removePath m (j :: t)) := by
  match t with
  | [] => simpa [removePath] using (setKey_eraseKey_ne b j v (Ne.symm h) m).symm
  | t₁ :: t₂ =>
    have hlook : lookupKey j (setKey b v m) = lookupKey j m :=
      lookupKey_setKey_ne j b v h m
    cases hL : lookupKey j m with
    | none => simp [removePath, hL, hlook]
    | some w =>
      match w with
      | DVal.prim n => simp [removePath, hL, hlook]
      | DVal.null => simp [removePath, hL, hlook]
      | DVal.obj nested =>
        by_cases hE : (removePath nested (t₁ :: t₂)).isEmpty
        · simp [removePath, hL, hlook, hE]
          exact (setKey_eraseKey_ne b j v (Ne.symm h) m).symm
        · simp [removePath, hL, hlook, hE]
          exact setKey_setKey_comm_ne j b _ v h m

theorem eraseKey_removePath_same (k : String) (u₁ : String) (u₂ : List String) (m : DMap) :
    eraseKey k (removePath m (k :: u₁ :: u₂)) = eraseKey k m := by
  cases hL : lookupKey k m with
  | none => simp [removePath, hL]
  | some v =>
    match v with
    | DVal.prim n => simp [removePath, hL]
    | DVal.null => simp [removePath, hL]
    | DVal.obj nested =>
      by_cases hE : (removePath nested (u₁ :: u₂)).isEmpty
      · simp [removePath, hL, hE, eraseKey_idem]
      · simp [removePath, hL, hE, eraseKey_setKey_self]

theorem removePath_after_eraseKey_same (k : String) (u₁ : String) (u₂ : List String)
    (m : DMap) : removePath (eraseKey k m) (k :: u₁ :: u₂) = eraseKey k m := by
  simp [removePath, lookupKey_eraseKey_self]

theorem removePath_comm (p : Path) : ∀ (m : DMap) (q : Path),
    removePath (removePath m p) q = removePath (removePath m q) p := by
  induction p with
  | nil =>
    intro m q
    simp [removePath]
  | cons k t ih =>
    intro m q
    cases q with
    | nil => simp [removePath]
    | cons j u =>
      by_cases hkj : k = j
      · subst hkj
        cases t with
        | nil =>
          cases u with
          | nil => rfl
          | cons u₁ u₂ =>
            have h1 : removePath m [k] = eraseKey k m := by simp [removePath]
            have h2 : removePath (removePath m (k :: u₁ :: u₂)) [k]
                = eraseKey k (removePath m (k :: u₁ :: u₂)) := by simp [removePath]
            rw [h1, h2, removePath_after_eraseKey_same, eraseKey_removePath_same]
        | cons t₁ t₂ =>
          cases u with
          | nil =>
            have h1 : removePath m [k] = eraseKey k m := by simp [removePath]
            have h2 : removePath (removePath m (k :: t₁ :: t₂)) [k]
                = eraseKey k (removePath m (k :: t₁ :: t₂)) := by simp [removePath]
            rw [h1, h2, removePath_after_eraseKey_same, eraseKey_removePath_same]
          | cons u₁ u₂ =>
            cases hL : lookupKey k m with
            | none => simp [removePath, hL]
            | some v =>
              match v with
              | DVal.prim n => simp [removePath, hL]
              | DVal.null => simp [removePath, hL]
              | DVal.obj nested =>
                have hIH : removePath (removePath nested (t₁ :: t₂)) (u₁ :: u₂)
                    = removePath (removePath nested (u₁ :: u₂)) (t₁ :: t₂) :=
                  ih nested (u₁ :: u₂)
                by_cases h₁ : (removePath nested (t₁ :: t₂)).isEmpty
                · by_cases h₂ : (removePath nested (u₁ :: u₂)).isEmpty
                  · have e1 : removePath m (k :: t₁ :: t₂) = eraseKey k m := by
                      simp [removePath, hL, h₁]
                    have e2 : removePath m (k :: u₁ :: u₂) = eraseKey k m := by
                      simp [removePath, hL, h₂]
                    rw [e1, e2, removePath_after_eraseKey_same,
                      removePath_after_eraseKey_same]
                  · have e1 : removePath m (k :: t₁ :: t₂) = eraseKey k m := by
                      simp [removePath, hL, h₁]
                    have e2 : removePath m (k :: u₁ :: u₂)
                        = setKey k (DVal.obj (removePath nested (u₁ :: u₂))) m := by
                      simp [removePath, hL, h₂]
                    rw [e1, e2, removePath_after_eraseKey_same]
                    have hlk : lookupKey k (setKey k (DVal.obj (removePath nested (u₁ :: u₂))) m)
                        = some (DVal.obj (removePath nested (u₁ :: u₂))) := by
                      rw [lookupKey_setKey_self, hL]; rfl
                    have hn : removePath (removePath nested (u₁ :: u₂)) (t₁ :: t₂) = [] := by
                      rw [← hIH, List.isEmpty_iff.mp h₁, removePath_nilMap]
                    simp [removePath, hlk, hn, eraseKey_setKey_self]
                · by_cases h₂ : (removePath nested (u₁ :: u₂)).isEmpty
                  · have e1 : removePath m (k :: t₁ :: t₂)
                        = setKey k (DVal.obj (removePath nested (t₁ :: t₂))) m := by
                      simp [removePath, hL, h₁]
                    have e2 : removePath m (k :: u₁ :: u₂) = eraseKey k m := by
                      simp [removePath, hL, h₂]
                    rw [e1, e2, removePath_after_eraseKey_same]
                    have hlk : lookupKey k (setKey k (DVal.obj (removePath nested (t₁ :: t₂))) m)
                        = some (DVal.obj (removePath nested (t₁ :: t₂))) := by
                      rw [lookupKey_setKey_self, hL]; rfl
                    have hn : removePath (removePath nested (t₁ :: t₂)) (u₁ :: u₂) = [] := by
                      rw [hIH, List.isEmpty_iff.mp h₂, removePath_nilMap]
                    simp [removePath, hlk, hn, eraseKey_setKey_self]
                  · have e1 : removePath m (k :: t₁ :: t₂)
                        = setKey k (DVal.obj (removePath nested (t₁ :: t₂))) m := by
                      simp [removePath, hL, h₁]
                    have e2 : removePath m (k :: u₁ :: u₂)
                        = setKey k (DVal.obj (removePath nested (u₁ :: u₂))) m := by
                      simp [removePath, hL, h₂]
                    rw [e1, e2]
                    have hlk1 : lookupKey k (setKey k (DVal.obj (removePath nested (t₁ :: t₂))) m)
                        = some (DVal.obj (removePath nested (t₁ :: t₂))) := by
                      rw [lookupKey_setKey_self, hL]; rfl
                    have hlk2 : lookupKey k (setKey k (DVal.obj (removePath nested (u₁ :: u₂))) m)
                        = some (DVal.obj (removePath nested (u₁ :: u₂))) := by
                      rw [lookupKey_setKey_self, hL]; rfl
                    by_cases hE : (removePath (removePath nested (t₁ :: t₂)) (u₁ :: u₂)).isEmpty
                    · have hE2 : (removePath (removePath nested (u₁ :: u₂)) (t₁ :: t₂)).isEmpty := by
                        rw [← hIH]; exact hE
                      simp [removePath, hlk1, hlk2, hE, hE2, eraseKey_setKey_self]
                    · have hE2 : ¬ (removePath (removePath nested (u₁ :: u₂)) (t₁ :: t₂)).isEmpty := by
                        rw [← hIH]; exact hE
                      simp [removePath, hlk1, hlk2, hE, hE2, setKey_setKey_self, hIH]
      · cases t with
        | nil =>
          have h1 : removePath m [k] = eraseKey k m := by simp [removePath]
          rw [h1, removePath_eraseKey_ne k j (Ne.symm hkj) u m]
          simp [removePath]
        | cons t₁ t₂ =>
          have hlook : lookupKey k (removePath m (j :: u)) = lookupKey k m :=
            lookupKey_removePath_ne k j hkj u m
          cases hL : lookupKey k m with
          | none =>
            have e1 : removePath m (k :: t₁ :: t₂) = m := by simp [removePath, hL]
            have e2 : removePath (removePath m (j :: u)) (k :: t₁ :: t₂)
                = removePath m (j :: u) := by
              simp [removePath, hlook, hL]
            rw [e1, e2]
          | some v =>
            match v with
            | DVal.prim n =>
              have e1 : removePath m (k :: t₁ :: t₂) = m := by simp [removePath, hL]
              have e2 : removePath (removePath m (j :: u)) (k :: t₁ :: t₂)
                  = removePath m (j :: u) := by
                simp [removePath, hlook, hL]
              rw [e1, e2]
            | DVal.null =>
              have e1 : removePath m (k :: t₁ :: t₂) = m := by simp [removePath, hL]
              have e2 : removePath (removePath m (j :: u)) (k :: t₁ :: t₂)
                  = removePath m (j :: u) := by
                simp [removePath, hlook, hL]
              rw [e1, e2]
            | DVal.obj nested =>
              by_cases h₁ : (removePath nested (t₁ :: t₂)).isEmpty
              · have e1 : removePath m (k :: t₁ :: t₂) = eraseKey k m := by
                  simp [removePath, hL, h₁]
                have e2 : removePath (removePath m (j :: u)) (k :: t₁ :: t₂)
                    = eraseKey k (removePath m (j :: u)) := by
                  simp [removePath, hlook, hL, h₁]
                rw [e1, e2, removePath_eraseKey_ne k j (Ne.symm hkj) u m]
              · have e1 : removePath m (k :: t₁ :: t₂)
                    = setKey k (DVal.obj (removePath nested (t₁ :: t₂))) m := by
                  simp [removePath, hL, h₁]
                have e2 : removePath (removePath m (j :: u)) (k :: t₁ :: t₂)
                    = setKey k (DVal.obj (removePath nested (t₁ :: t₂))) (removePath m (j :: u)) := by
                  simp [removePath, hlook, hL, h₁]
                rw [e1, e2, removePath_setKey_ne k j _ (Ne.symm hkj) u m]

theorem removePath_idem (p : Path) : ∀ m : DMap,
    removePath (removePath m p) p = removePath m p := by
  induction p with
  | nil => intro m; simp [removePath]
  | cons k t ih =>
    intro m
    cases t with
    | nil => simp [removePath, eraseKey_idem]
    | cons t₁ t₂ =>
      cases hL : lookupKey k m with
      | none => simp [removePath, hL]
      | some v =>
        match v with
        | DVal.prim n => simp [removePath, hL]
        | DVal.null => simp [removePath, hL]
        | DVal.obj nested =>
          by_cases h₁ : (removePath nested (t₁ :: t₂)).isEmpty
          · have e1 : removePath m (k :: t₁ :: t₂) = eraseKey k m := by
              simp [removePath, hL, h₁]
            rw [e1, removePath_after_eraseKey_same]
          · have e1 : removePath m (k :: t₁ :: t₂)
                = setKey k (DVal.obj (removePath nested (t₁ :: t₂))) m := by
              simp [removePath, hL, h₁]
            rw [e1]
            have hlk : lookupKey k (setKey k (DVal.obj (removePath nested (t₁ :: t₂))) m)
                = some (DVal.obj (removePath nested (t₁ :: t₂))) := by
              rw [lookupKey_setKey_self, hL]; rfl
            simp [removePath, hlk, ih nested, h₁, setKey_setKey_self]

theorem applyIgnorePaths_cons (d : DMap) (q : Path) (l : List Path) :
    applyIgnorePaths d (q :: l) = applyIgnorePaths (removePath d q) l := rfl

theorem removePath_applyIgnorePaths (l : List Path) : ∀ (d : DMap) (p : Path),
    removePath (applyIgnorePaths d l) p = applyIgnorePaths (removePath d p) l := by
  induction l with
  | nil => intro d p; rfl
  | cons q l ih =>
    intro d p
    rw [applyIgnorePaths_cons, applyIgnorePaths_cons, ih, removePath_comm]

/-! Facts about the allow pass. -/

theorem checkAllowed_isSome (k : String) (allow : List Path)
    (h : ∀ p ∈ allow, p ≠ []) : checkAllowed k allow ≠ none := by
  induction allow with
  | nil => simp [checkAllowed]
  | cons p rest ih =>
    match p with
    | [] => exact absurd rfl (h [] (by simp))
    | s :: tl =>
      by_cases hs : s = k
      · simp [checkAllowed, hs]
      · simp only [checkAllowed, hs, if_false]
        exact ih (fun q hq => h q (by simp [hq]))

theorem checkAllowed_true (k : String) (allow : List Path)
    (h : checkAllowed k allow = some true) : ∃ p ∈ allow, p.head? = some k := by
  induction allow with
  | nil => simp [checkAllowed] at h
  | cons p rest ih =>
    match p with
    | [] => simp [checkAllowed] at h
    | s :: tl =>
      by_cases hs : s = k
      · exact ⟨s :: tl, by simp, by simp [hs]⟩
      · simp only [checkAllowed, hs, if_false] at h
        obtain ⟨q, hq, hq2⟩ := ih h
        exact ⟨q, by simp [hq], hq2⟩

theorem collectNested_isSome (k : String) (allow : List Path)
    (h : ∀ p ∈ allow, p ≠ []) : collectNested k allow ≠ none := by
  induction allow with
  | nil => simp [collectNested]
  | cons p rest ih =>
    match p with
    | [] => exact absurd rfl (h [] (by simp))
    | s :: tl =>
      have hrest := ih (fun q hq => h q (by simp [hq]))
      simp only [collectNested]
      cases hc : collectNested k rest with
      | none => exact absurd hc hrest
      | some r => simp

theorem collectNested_mem_ne_nil (k : String) (allow : List Path) (l : List Path)
    (h : collectNested k allow = some l) : ∀ q ∈ l, q ≠ [] := by
  induction allow generalizing l with
  | nil => simp [collectNested] at h; subst h; simp
  | cons p rest ih =>
    match p with
    | [] => simp [collectNested] at h
    | s :: tl =>
      simp only [collectNested] at h
      cases hc : collectNested k rest with
      | none => rw [hc] at h; simp at h
      | some r =>
        rw [hc] at h
        simp only [Option.some.injEq] at h
        subst h
        by_cases hcond : s = k ∧ tl ≠ []
        · rw [if_pos hcond]
          intro q hq
          rcases List.mem_cons.mp hq with hq | hq
          · subst hq; exact hcond.2
          · exact ih r hc q hq
        · rw [if_neg hcond]
          exact ih r hc

theorem filter_total_aux (N : Nat) : ∀ (d : DMap) (allow : List Path),
    sizeOf d ≤ N → (∀ p ∈ allow, p ≠ []) →
    processEntries d allow ≠ none ∧ filterDiffMap d allow ≠ none := by
  induction N using Nat.strong_induction_on with
  | _ N ih =>
    intro d allow hsz hall
    have hPE : processEntries d allow ≠ none := by
      rcases d with _ | ⟨⟨k, m⟩, rest⟩
      · simp [processEntries]
      · have hszrest : sizeOf rest < N := by
          have hlt : sizeOf rest < sizeOf (((k, m) : String × DVal) :: rest) := by
            simp only [List.cons.sizeOf_spec]; omega
          omega
        have h1 := (ih (sizeOf rest) hszrest rest allow le_rfl hall).1
        obtain ⟨tail, htail⟩ := Option.ne_none_iff_exists'.mp h1
        simp only [processEntries, htail, Option.some_bind]
        have h2 := checkAllowed_isSome k allow hall
        obtain ⟨allowed, hallowed⟩ := Option.ne_none_iff_exists'.mp h2
        rw [hallowed]
        simp only [Option.some_bind]
        cases allowed with
        | false => simp
        | true =>
          simp only [if_true]
          cases m with
          | prim n => simp
          | null => simp
          | obj nested =>
            have h3 := collectNested_isSome k allow hall
            obtain ⟨l, hl⟩ := Option.ne_none_iff_exists'.mp h3
            rw [hl]
            simp only [Option.some_bind]
            by_cases hle : l.isEmpty
            · simp [hle]
            · simp only [hle, if_false, Bool.false_eq_true]
              have hnesz : sizeOf nested < N := by
                have hlt : sizeOf nested
                    < sizeOf (((k, DVal.obj nested) : String × DVal) :: rest) := by
                  simp only [List.cons.sizeOf_spec, Prod.mk.sizeOf_spec,
                    DVal.obj.sizeOf_spec]
                  omega
                omega
              have h4 := (ih (sizeOf nested) hnesz nested l le_rfl
                (collectNested_mem_ne_nil k allow l hl)).2
              obtain ⟨nested', hn⟩ := Option.ne_none_iff_exists'.mp h4
              rw [hn]
              simp only [Option.some_bind]
              by_cases hne : nested'.isEmpty <;> simp [hne]
    have hFDM : filterDiffMap d allow ≠ none := by
      rcases allow with _ | ⟨p, rest⟩
      · simp only [filterDiffMap]
        exact hPE
      · rcases p with _ | ⟨s, tl⟩
        · exact absurd rfl (hall [] (by simp))
        · rcases rest with _ | ⟨q, rest'⟩
          · by_cases hs : s = "*"
            · simp [filterDiffMap, hs]
            · simp only [filterDiffMap, hs, if_false]
              exact hPE
          · simp only [filterDiffMap]
            exact hPE
    exact ⟨hPE, hFDM⟩

/-! Preservation of the no-empty-object invariant by the ignore pass. -/

theorem mapNoEmpty_eraseKey (k : String) (m : DMap) (h : mapNoEmpty m = true) :
    mapNoEmpty (eraseKey k m) = true := by
  induction m with
  | nil => simpa using h
  | cons e rest ih =>
    obtain ⟨ek, ev⟩ := e
    simp only [mapNoEmpty, Bool.and_eq_true] at h
    by_cases hk : ek = k
    · simp only [eraseKey, hk, if_true]
      exact ih h.2
    · simp only [eraseKey, hk, if_false, mapNoEmpty, Bool.and_eq_true]
      exact ⟨h.1, ih h.2⟩

theorem mapNoEmpty_setKey (k : String) (v : DVal) (m : DMap)
    (h : mapNoEmpty m = true) (hv : valNoEmpty v = true) :
    mapNoEmpty (setKey k v m) = true := by
  induction m with
  | nil => simpa using h
  | cons e rest ih =>
    obtain ⟨ek, ev⟩ := e
    simp only [mapNoEmpty, Bool.and_eq_true] at h
    by_cases hk : ek = k
    · simp only [setKey, hk, if_true, mapNoEmpty, Bool.and_eq_true]
      exact ⟨hv, ih h.2⟩
    · simp only [setKey, hk, if_false, mapNoEmpty, Bool.and_eq_true]
      exact ⟨h.1, ih h.2⟩

theorem valNoEmpty_lookupKey (k : String) (m : DMap) (v : DVal)
    (h : mapNoEmpty m = true) (hl : lookupKey k m = some v) :
    valNoEmpty v = true := by
  induction m with
  | nil => simp [lookupKey] at hl
  | cons e rest ih =>
    obtain ⟨ek, ev⟩ := e
    simp only [mapNoEmpty, Bool.and_eq_true] at h
    by_cases hk : ek = k
    · simp only [lookupKey, hk, if_true, Option.some.injEq] at hl
      subst hl
      exact h.1
    · simp only [lookupKey, hk, if_false] at hl
      exact ih h.2 hl

theorem mapNoEmpty_removePath (p : Path) : ∀ m : DMap, mapNoEmpty m = true →
    mapNoEmpty (removePath m p) = true := by
  induction p with
  | nil => intro m h; simpa [removePath] using h
  | cons k t ih =>
    intro m h
    cases t with
    | nil =>
      have e1 : removePath m [k] = eraseKey k m := by simp [removePath]
      rw [e1]
      exact mapNoEmpty_eraseKey k m h
    | cons t₁ t₂ =>
      cases hL : lookupKey k m with
      | none => simpa [removePath, hL] using h
      | some v =>
        match v with
        | DVal.prim n => simpa [removePath, hL] using h
        | DVal.null => simpa [removePath, hL] using h
        | DVal.obj nested =>
          have hval := valNoEmpty_lookupKey k m _ h hL
          simp only [valNoEmpty, Bool.and_eq_true] at hval
          have hnested := ih nested hval.2
          by_cases hE : (removePath nested (t₁ :: t₂)).isEmpty
          · have e1 : removePath m (k :: t₁ :: t₂) = eraseKey k m := by
              simp [removePath, hL, hE]
            rw [e1]
            exact mapNoEmpty_eraseKey k m h
          · have e1 : removePath m (k :: t₁ :: t₂)
                = setKey k (DVal.obj (removePath nested (t₁ :: t₂))) m := by
              simp [removePath, hL, hE]
            rw [e1]
            refine mapNoEmpty_setKey k _ m h ?_
            simp only [valNoEmpty, Bool.and_eq_true]
            exact ⟨by simpa using hE, hnested⟩

/-! Soundness of the allow pass with respect to kept keys. -/

theorem processEntries_keys (entries : DMap) (allow : List Path) : ∀ r : DMap,
    processEntries entries allow = some r → ∀ k : String,
    lookupKey k r ≠ none → checkAllowed k allow = some true := by
  induction entries with
  | nil =>
    intro r h k hk
    simp only [processEntries, Option.some.injEq] at h
    subst h
    simp [lookupKey] at hk
  | cons e rest ih =>
    obtain ⟨k₁, m⟩ := e
    intro r h k hk
    simp only [processEntries] at h
    cases hpe : processEntries rest allow with
    | none => rw [hpe] at h; simp at h
    | some tail =>
      rw [hpe] at h
      simp only [Option.some_bind] at h
      cases hca : checkAllowed k₁ allow with
      | none => rw [hca] at h; simp at h
      | some allowed =>
        rw [hca] at h
        simp only [Option.some_bind] at h
        cases allowed with
        | false =>
          simp only [Bool.false_eq_true, if_false, Option.some.injEq] at h
          subst h
          exact ih tail hpe k hk
        | true =>
          simp only [if_true] at h
          have hcons : ∀ v : DVal, r = (k₁, v) :: tail →
              checkAllowed k allow = some true := by
            intro v hr
            subst hr
            by_cases hkk : k₁ = k
            · subst hkk; exact hca
            · simp only [lookupKey, hkk, if_false] at hk
              exact ih tail hpe k hk
          cases m with
          | prim n =>
            simp only [Option.some.injEq] at h
            exact hcons _ h.symm
          | null =>
            simp only [Option.some.injEq] at h
            exact hcons _ h.symm
          | obj nested =>
            cases hcn : collectNested k₁ allow with
            | none => rw [hcn] at h; simp at h
            | some nestedPaths =>
              rw [hcn] at h
              simp only [Option.some_bind] at h
              by_cases hnp : nestedPaths.isEmpty
              · rw [if_pos hnp] at h
                simp only [Option.some.injEq] at h
                exact hcons _ h.symm
              · rw [if_neg hnp] at h
                cases hfd : filterDiffMap nested nestedPaths with
                | none => rw [hfd] at h; simp at h
                | some nested' =>
                  rw [hfd] at h
                  simp only [Option.some_bind] at h
                  by_cases hne : nested'.isEmpty
                  · rw [if_pos hne] at h
                    simp only [Option.some.injEq] at h
                    subst h
                    exact ih tail hpe k hk
                  · rw [if_neg hne] at h
                    simp only [Option.some.injEq] at h
                    exact hcons _ h.symm

theorem processEntries_single_leaf (y : String) (n : DMap) :
    processEntries n [[y]] = some (n.filter (fun e => e.1 == y)) := by
  induction n with
  | nil => simp [processEntries]
  | cons e rest ih =>
    obtain ⟨k, v⟩ := e
    simp only [processEntries, ih, Option.some_bind]
    by_cases hk : y = k
    · subst hk
      simp only [checkAllowed, if_pos rfl, Option.some_bind, if_true]
      cases v with
      | prim n => simp [List.filter]
      | null => simp [List.filter]
      | obj nested =>
        simp only [collectNested, Option.some_bind]
        simp [List.filter]
    · have hca : checkAllowed k [[y]] = some false := by
        simp [checkAllowed, hk]
      rw [hca]
      simp only [Option.some_bind, Bool.false_eq_true, if_false]
      have hby : (k == y) = false := by simp [Ne.symm hk]
      simp [List.filter, hby]

/-! Reflexivity of the modelled merge patch. -/

theorem valBeq_refl_aux (N : Nat) : ∀ v : DVal, sizeOf v ≤ N → valBeq v v = true := by
  induction N using Nat.strong_induction_on with
  | _ N ih =>
    intro v hsz
    cases v with
    | prim n => simp [valBeq]
    | null => simp [valBeq]
    | obj m =>
      cases m with
      | nil => simp [valBeq]
      | cons e r =>
        obtain ⟨k, w⟩ := e
        have hw : sizeOf w < N := by
          have : sizeOf w < sizeOf (DVal.obj ((k, w) :: r)) := by
            simp only [DVal.obj.sizeOf_spec, List.cons.sizeOf_spec, Prod.mk.sizeOf_spec]
            omega
          omega
        have hr : sizeOf (DVal.obj r) < N := by
          have : sizeOf (DVal.obj r) < sizeOf (DVal.obj ((k, w) :: r)) := by
            simp only [DVal.obj.sizeOf_spec, List.cons.sizeOf_spec, Prod.mk.sizeOf_spec]
            omega
          omega
        simp only [valBeq, Bool.and_eq_true, beq_self_eq_true, true_and]
        exact ⟨ih (sizeOf w) hw w le_rfl, ih (sizeOf (DVal.obj r)) hr _ le_rfl⟩

theorem valBeq_refl (v : DVal) : valBeq v v = true :=
  valBeq_refl_aux (sizeOf v) v le_rfl

theorem lookupKey_of_mem_nodup (A : DMap) (h : (A.map Prod.fst).Nodup) :
    ∀ k v, (k, v) ∈ A → lookupKey k A = some v := by
  induction A with
  | nil => simp
  | cons e rest ih =>
    obtain ⟨ek, ev⟩ := e
    intro k v hm
    simp only [List.map_cons, List.nodup_cons] at h
    rcases List.mem_cons.mp hm with hm | hm
    · rw [Prod.mk.injEq] at hm
      obtain ⟨hk, hv⟩ := hm
      subst hk
      subst hv
      simp [lookupKey]
    · have hkrest : k ∈ rest.map Prod.fst := List.mem_map.mpr ⟨(k, v), hm, rfl⟩
      have hne : ek ≠ k := by
        intro he
        subst he
        exact h.1 hkrest
      simp only [lookupKey, hne, if_false]
      exact ih h.2 k v hm

theorem lookupKey_ne_none_of_mem (A : DMap) : ∀ k v, (k, v) ∈ A → lookupKey k A ≠ none := by
  induction A with
  | nil => simp
  | cons e rest ih =>
    obtain ⟨ek, ev⟩ := e
    intro k v hm
    by_cases hk : ek = k
    · simp [lookupKey, hk]
    · rcases List.mem_cons.mp hm with hm | hm
      · exact absurd (congrArg Prod.fst hm).symm hk
      · simp only [lookupKey, hk, if_false]
        exact ih k v hm

theorem mergePatchChanged_self (A : DMap) : ∀ l : DMap,
    (∀ e ∈ l, lookupKey e.1 A = some e.2) → mergePatchChanged l A = [] := by
  intro l
  induction l with
  | nil => intro _; simp [mergePatchChanged]
  | cons e rest ih =>
    obtain ⟨k, ov⟩ := e
    intro h
    have hk : lookupKey k A = some ov := h (k, ov) (by simp)
    simp only [mergePatchChanged, hk, valBeq_refl ov, if_true]
    exact ih (fun e he => h e (by simp [he]))

theorem mergePatch_self (A : DMap) (h : (A.map Prod.fst).Nodup) :
    mergePatch A A = [] := by
  simp only [mergePatch]
  rw [mergePatchChanged_self A A (fun e he => lookupKey_of_mem_nodup A h e.1 e.2 he)]
  simp only [List.nil_append]
  rw [List.filter_eq_nil_iff]
  intro e he
  simp only [Bool.not_eq_true, Option.isNone_eq_false_iff, Option.isSome_iff_ne_none]
  exact lookupKey_ne_none_of_mem A e.1 e.2 he

/-- Unfolding of `Matcher.Match` on two non-nil operands with explicit options
(proved by constructor reduction only, keeping the diff and filter symbolic). -/
theorem Matcher_Match_some_some (o a : DMap) (ip ap : List Path) :
    (Matcher.mk (some o) (MatchOptions.mk ip ap)).Match (some a)
      = match filterDiff (mergePatch o a) ap ip with
        | none => none
        | some fd => some (Except.ok fd.isEmpty) := rfl

/-! Claim theorems. -/

/-- C7: for every delta tree and every ignore-list, applying the ignore pass
(`removePath` for each path in list order) twice in succession yields the same
delta as applying it once. -/
theorem claim_C7_ignore_pass_idempotent (d : DMap) (ignore : List Path) :
    applyIgnorePaths (applyIgnorePaths d ignore) ignore = applyIgnorePaths d ignore := by
  induction ignore generalizing d with
  | nil => rfl
  | cons p l ih =>
    simp only [applyIgnorePaths_cons]
    rw [removePath_applyIgnorePaths, removePath_idem]
    exact ih (removePath d p)

/-- C8: for every delta tree and every ignore-list, the result of applying
`removePath` once per ignore path is the same for every permutation of the
ignore list. -/
theorem claim_C8_ignore_pass_order_independent (d : DMap) (l₁ l₂ : List Path)
    (h : l₁.Perm l₂) : applyIgnorePaths d l₁ = applyIgnorePaths d l₂ := by
  induction h generalizing d with
  | nil => rfl
  | cons x h ih =>
    simp only [applyIgnorePaths_cons]
    exact ih (removePath d x)
  | swap x y l =>
    simp only [applyIgnorePaths_cons]
    rw [removePath_comm]
  | trans h₁ h₂ ih₁ ih₂ => rw [ih₁ d, ih₂ d]

/-- Witness for C8 at a concrete delta and a concrete transposed ignore list. -/
theorem claim_C8_witness :
    applyIgnorePaths [("a", DVal.prim 1), ("b", DVal.prim 2)] [["a"], ["b"]]
      = applyIgnorePaths [("a", DVal.prim 1), ("b", DVal.prim 2)] [["b"], ["a"]] :=
  claim_C8_ignore_pass_order_independent [("a", DVal.prim 1), ("b", DVal.prim 2)]
    [["a"], ["b"]] [["b"], ["a"]] (List.Perm.swap ["b"] ["a"] [])

/-- C5: case analysis of `removePath` — length 0 is a no-op, length 1 deletes the
top-level key, longer paths descend into a nested map (no-op when the first key
is absent or not a nested map) and delete the first key when its nested map
became empty — and the ignore pass never creates an empty-object remnant. -/
theorem claim_C5_removePath_behavior :
    (∀ m : DMap, removePath m [] = m) ∧
    (∀ (m : DMap) (k : String), removePath m [k] = eraseKey k m) ∧
    (∀ (m : DMap) (k t₁ : String) (t₂ : List String),
      (∀ n : DMap, lookupKey k m ≠ some (DVal.obj n)) →
      removePath m (k :: t₁ :: t₂) = m) ∧
    (∀ (m : DMap) (k t₁ : String) (t₂ : List String) (n : DMap),
      lookupKey k m = some (DVal.obj n) →
      removePath m (k :: t₁ :: t₂) =
        if (removePath n (t₁ :: t₂)).isEmpty then eraseKey k m
        else setKey k (DVal.obj (removePath n (t₁ :: t₂))) m) ∧
    (∀ (m : DMap) (p : Path), mapNoEmpty m = true →
      mapNoEmpty (removePath m p) = true) := by
  refine ⟨fun m => by simp [removePath], fun m k => by simp [removePath], ?_, ?_, ?_⟩
  · intro m k t₁ t₂ h
    cases hL : lookupKey k m with
    | none => simp [removePath, hL]
    | some v =>
      match v with
      | DVal.prim a => simp [removePath, hL]
      | DVal.null => simp [removePath, hL]
      | DVal.obj n => exact absurd hL (h n)
  · intro m k t₁ t₂ n hL
    by_cases hE : (removePath n (t₁ :: t₂)).isEmpty
    · simp [removePath, hL, hE]
    · simp [removePath, hL, hE]
  · intro m p h
    exact mapNoEmpty_removePath p m h

/-- Witness for C5 at a concrete nested delta: removing the only field of a
nested diff deletes the whole parent key, leaving no empty object behind. -/
theorem claim_C5_witness :
    removePath [("a", DVal.obj [("b", DVal.prim 1)])] ["a", "b"] = [] ∧
    mapNoEmpty (removePath [("a", DVal.obj [("b", DVal.prim 1)])] ["a", "b"]) = true := by
  constructor
  · have h := claim_C5_removePath_behavior.2.2.2.1 [("a", DVal.obj [("b", DVal.prim 1)])]
      "a" "b" [] [("b", DVal.prim 1)] (by simp [lookupKey])
    rw [h]
    simp [removePath, eraseKey]
  · exact claim_C5_removePath_behavior.2.2.2.2 [("a", DVal.obj [("b", DVal.prim 1)])]
      ["a", "b"] (by simp [mapNoEmpty, valNoEmpty])

/-- C2 counterexample: an allow-list containing a zero-length path makes the
allow pass index `path[0]` out of range, a Go panic (modelled as `none`), even
on an empty diff — so filtering does not treat every malformed path as a no-op. -/
theorem claim_C2_counterexample : filterDiff [] [[]] [] = none := by
  simp [filterDiff, filterDiffMap]

/-- C2 (amended): provided every allow path is non-empty, the filtering step
(allow pass then ignore pass) always returns normally: empty-string segments,
paths referencing absent structure, and ignore paths of any shape (including
zero-length ones) are silent no-ops. -/
theorem claim_C2_filtering_total (d : DMap) (allow ignore : List Path)
    (h : ∀ p ∈ allow, p ≠ []) : ∃ r, filterDiff d allow ignore = some r := by
  have hf := (filter_total_aux (sizeOf d) d allow le_rfl h).2
  obtain ⟨fd, hfd⟩ := Option.ne_none_iff_exists'.mp hf
  exact ⟨applyIgnorePaths fd ignore, by simp [filterDiff, hfd]⟩

/-- Witness for the amended C2 with malformed-but-nonempty allow paths and
arbitrarily malformed ignore paths. -/
theorem claim_C2_witness :
    ∃ r, filterDiff [("a", DVal.prim 1)] [["a", ""], ["b"]]
      [[], [""], ["zz", "q"]] = some r :=
  claim_C2_filtering_total [("a", DVal.prim 1)] [["a", ""], ["b"]]
    [[], [""], ["zz", "q"]] (by simp)

/-- C3: for non-nil operands (serialization and diffing never fail in the model),
`Match` returns `(true, nil)` exactly when the filtered delta — the merge-patch
delta after the allow pass then the ignore pass — is the empty object. -/
theorem claim_C3_match_iff_empty_filtered (o a : DMap) (ip ap : List Path) (fd : DMap)
    (h : filterDiff (mergePatch o a) ap ip = some fd) :
    (Matcher.mk (some o) (MatchOptions.mk ip ap)).Match (some a)
        = some (Except.ok fd.isEmpty) ∧
    ((Matcher.mk (some o) (MatchOptions.mk ip ap)).Match (some a)
        = some (Except.ok true) ↔ fd = []) := by
  constructor
  · simp [Matcher.Match, MatchWith, h]
  · simp [Matcher.Match, MatchWith, h, List.isEmpty_iff]

/-- Witness for C3 at concrete equal operands under the wildcard allow-list. -/
theorem claim_C3_witness :
    (Matcher.mk (some []) (MatchOptions.mk [] [["*"]])).Match (some [])
      = some (Except.ok true) :=
  (claim_C3_match_iff_empty_filtered [] [] [] [["*"]] []
    (by simp [mergePatch, mergePatchChanged, filterDiff, filterDiffMap,
      applyIgnorePaths])).2.mpr rfl

/-- C4: `Match` on two nil operands returns `(true, nil)`; with exactly one nil
operand it returns `(false, e)` with a non-nil error; in both situations no
diffing or filtering is performed (the result does not depend on the diff
builder at all). -/
theorem claim_C4_nil_handling :
    (∀ opts : MatchOptions,
      (Matcher.mk none opts).Match none = some (Except.ok true)) ∧
    (∀ (opts : MatchOptions) (a : DMap),
      ∃ e, (Matcher.mk none opts).Match (some a) = some (Except.error e)) ∧
    (∀ (opts : MatchOptions) (o : DMap),
      ∃ e, (Matcher.mk (some o) opts).Match none = some (Except.error e)) ∧
    (∀ (f g : DMap → DMap → DMap) (opts : MatchOptions) (a : Option DMap),
      MatchWith f (Matcher.mk none opts) a = MatchWith g (Matcher.mk none opts) a) ∧
    (∀ (f g : DMap → DMap → DMap) (opts : MatchOptions) (o : DMap),
      MatchWith f (Matcher.mk (some o) opts) none
        = MatchWith g (Matcher.mk (some o) opts) none) := by
  refine ⟨fun opts => rfl, fun opts a => ⟨_, rfl⟩, fun opts o => ⟨_, rfl⟩, ?_, ?_⟩
  · intro f g opts a
    cases a with
    | none => rfl
    | some x => rfl
  · intro f g opts o
    rfl

/-- C9: a comparator built by `EqualObject` with no options normalizes the empty
allow-list to the wildcard list, and `Match` of any well-formed object against
itself returns `(true, nil)`. -/
theorem claim_C9_reflexivity (A : DMap) (h : (A.map Prod.fst).Nodup) :
    (EqualObject (some A) []).Match (some A) = some (Except.ok true) ∧
    (EqualObject (some A) []).options.allowPaths = [["*"]] := by
  have hopts : EqualObject (some A) [] = Matcher.mk (some A) (MatchOptions.mk [] [["*"]]) := by
    simp [EqualObject, ApplyOptions]
  constructor
  · rw [hopts]
    simp [Matcher.Match, MatchWith, mergePatch_self A h, filterDiff, filterDiffMap,
      applyIgnorePaths]
  · rw [hopts]

/-- Witness for C9 at a concrete one-field object. -/
theorem claim_C9_witness :
    (EqualObject (some [("a", DVal.prim 1)]) []).Match (some [("a", DVal.prim 1)])
      = some (Except.ok true) :=
  (claim_C9_reflexivity [("a", DVal.prim 1)] (by simp)).1

/-- C6: for a non-wildcard allow-list, the allow pass drops every top-level key
that no allow path starts with; in particular the spec example — original
`spec.replicas = 3`, candidate `spec.replicas = 5`, allow-list `[["status"]]` —
matches successfully because the whole diff is dropped. -/
theorem claim_C6_allow_drops_unlisted :
    (∀ (d : DMap) (allow : List Path) (r : DMap) (k : String),
      (¬ ∃ p, allow = [p] ∧ p.head? = some "*") →
      filterDiffMap d allow = some r →
      (∀ p ∈ allow, p.head? ≠ some k) →
      lookupKey k r = none) ∧
    (EqualObject (some [("spec", DVal.obj [("replicas", DVal.prim 3)])])
        [MatchOption.AllowPaths [["status"]]]).Match
      (some [("spec", DVal.obj [("replicas", DVal.prim 5)])]) = some (Except.ok true) := by
  constructor
  · intro d allow r k hw hf hk
    by_contra hlk
    have hpe : processEntries d allow = some r := by
      rcases allow with _ | ⟨p, rest⟩
      · simpa only [filterDiffMap] using hf
      · rcases p with _ | ⟨s, tl⟩
        · rcases rest with _ | ⟨q, rest'⟩
          · simp [filterDiffMap] at hf
          · simpa only [filterDiffMap] using hf
        · rcases rest with _ | ⟨q, rest'⟩
          · by_cases hs : s = "*"
            · exact absurd ⟨s :: tl, rfl, by simp [hs]⟩ hw
            · simpa only [filterDiffMap, hs, if_false] using hf
          · simpa only [filterDiffMap] using hf
    have hca := processEntries_keys d allow r hpe k hlk
    obtain ⟨p, hp, hph⟩ := checkAllowed_true k allow hca
    exact hk p hp hph
  · have hMP : mergePatch [("spec", DVal.obj [("replicas", DVal.prim 3)])]
        [("spec", DVal.obj [("replicas", DVal.prim 5)])]
        = [("spec", DVal.obj [("replicas", DVal.prim 5)])] := by
      simp [mergePatch, mergePatchChanged, lookupKey, valBeq]
    have hFD : filterDiffMap [("spec", DVal.obj [("replicas", DVal.prim 5)])] [["status"]]
        = some [] := by
      simp [filterDiffMap, processEntries, checkAllowed]
    have hEO : EqualObject (some [("spec", DVal.obj [("replicas", DVal.prim 3)])])
        [MatchOption.AllowPaths [["status"]]]
        = Matcher.mk (some [("spec", DVal.obj [("replicas", DVal.prim 3)])])
            (MatchOptions.mk [] [["status"]]) := by
      simp [EqualObject, ApplyOptions, applyToMatcher]
    have hFDfull : filterDiff [("spec", DVal.obj [("replicas", DVal.prim 5)])]
        [["status"]] [] = some [] := by
      simp [filterDiff, hFD, applyIgnorePaths]
    rw [hEO, Matcher_Match_some_some, hMP, hFDfull]
    rfl

/-- Witness for C6: key `a` of a concrete diff is dropped under allow-list
`[["b"]]`. -/
theorem claim_C6_witness : lookupKey "a" ([] : DMap) = none := by
  refine claim_C6_allow_drops_unlisted.1 [("a", DVal.prim 1)] [["b"]] [] "a" ?_ ?_ ?_
  · rintro ⟨p, hp, hph⟩
    simp only [List.cons.injEq, and_true] at hp
    rw [← hp] at hph
    simp at hph
  · simp [filterDiffMap, processEntries, checkAllowed]
  · simp

/-- C1 counterexample: with allow-list `[["x"], ["x","y"]]` and delta
`x ↦ \x7b y ↦ 1, z ↦ 2 \x7d`, the allow pass does NOT keep x's whole subtree:
field `z` is dropped, so the leaf-level allow entry does not take precedence
over the deeper entry. -/
theorem claim_C1_counterexample :
    filterDiffMap [("x", DVal.obj [("y", DVal.prim 1), ("z", DVal.prim 2)])]
        [["x"], ["x", "y"]]
      = some [("x", DVal.obj [("y", DVal.prim 1)])] ∧
    [("x", DVal.obj [("y", DVal.prim 1)])]
      ≠ [("x", DVal.obj [("y", DVal.prim 1), ("z", DVal.prim 2)])] := by
  constructor
  · simp [filterDiffMap, processEntries, checkAllowed, collectNested]
  · simp

/-- C1 (amended): when the allow-list holds both the leaf path `[x]` and the
deeper path `[x, y]` and the delta at `x` is a nested tree, the deeper entry
wins: the subtree is filtered down to its `y` field (and `x` itself is dropped
when no `y` field exists); the leaf entry does not preserve the other fields. -/
theorem claim_C1_amended (x y : String) (hy : y ≠ "*") (n : DMap) :
    filterDiffMap [(x, DVal.obj n)] [[x], [x, y]]
      = some (if (n.filter (fun e => e.1 == y)).isEmpty then []
              else [(x, DVal.obj (n.filter (fun e => e.1 == y)))]) := by
  have hfd : filterDiffMap n [[y]] = some (n.filter (fun e => e.1 == y)) := by
    simp only [filterDiffMap, hy, if_false]
    exact processEntries_single_leaf y n
  have hca : checkAllowed x [[x], [x, y]] = some true := by
    simp [checkAllowed]
  have hcn : collectNested x [[x], [x, y]] = some [[y]] := by
    simp [collectNested]
  by_cases hE : (n.filter (fun e => e.1 == y)).isEmpty
  · simp [filterDiffMap, processEntries, hca, hcn, hfd, hE]
  · simp [filterDiffMap, processEntries, hca, hcn, hfd, hE]

/-- Witness for the amended C1: the delta at `x` has only a `z` field, so under
`[["x"], ["x","y"]]` everything is filtered away. -/
theorem claim_C1_amended_witness :
    filterDiffMap [("x", DVal.obj [("z", DVal.prim 2)])] [["x"], ["x", "y"]]
      = some [] := by
  have h := claim_C1_amended "x" "y" (by decide) [("z", DVal.prim 2)]
  simpa using h

/-- C10 counterexample: in the two-path allow-list `[["x","*","y"], ["z"]]` the
`*` segment does act as a wildcard (the recursive call receives the singleton
list `[["*","y"]]` and takes the fast path), so the key `a` — not literally
named `*` — survives together with its whole subtree. -/
theorem claim_C10_counterexample :
    filterDiffMap [("x", DVal.obj [("a", DVal.obj [("b", DVal.prim 1)])])]
        [["x", "*", "y"], ["z"]]
      = some [("x", DVal.obj [("a", DVal.obj [("b", DVal.prim 1)])])] ∧
    ("a" : String) ≠ "*" := by
  constructor
  · simp [filterDiffMap, processEntries, checkAllowed, collectNested]
  · decide

/-- C10 (amended): the wildcard fast path triggers exactly for a singleton
allow-list whose path starts with `*` (any length, so `[["*","x"]]` leaves every
delta unchanged); any other list shape goes through per-entry matching, where a
first segment only matches a key literally equal to it; but a `*` deeper in a
path still acts as a full wildcard whenever the recursive call's path list
becomes a singleton headed by `*`. -/
theorem claim_C10_amended :
    (∀ (d : DMap) (tl : List String), filterDiffMap d ([("*" :: tl)]) = some d) ∧
    (∀ (d : DMap) (allow : List Path), allow.length ≠ 1 →
      filterDiffMap d allow = processEntries d allow) ∧
    (∀ (k : String) (allow : List Path), checkAllowed k allow = some true →
      ∃ p ∈ allow, p.head? = some k) ∧
    (∀ n : DMap, n ≠ [] →
      filterDiffMap [("x", DVal.obj n)] [["x", "*", "y"], ["z"]]
        = some [("x", DVal.obj n)]) := by
  refine ⟨fun d tl => by simp [filterDiffMap], ?_, checkAllowed_true, ?_⟩
  · intro d allow hlen
    rcases allow with _ | ⟨p, rest⟩
    · simp [filterDiffMap]
    · rcases rest with _ | ⟨q, rest'⟩
      · simp at hlen
      · simp [filterDiffMap]
  · intro n hn
    have hca : checkAllowed "x" [["x", "*", "y"], ["z"]] = some true := by
      simp [checkAllowed]
    have hcn : collectNested "x" [["x", "*", "y"], ["z"]] = some [["*", "y"]] := by
      simp [collectNested]
    have hfd : filterDiffMap n [["*", "y"]] = some n := by
      simp [filterDiffMap]
    simp [filterDiffMap, processEntries, hca, hcn, hfd, hn]

/-- Witness for the amended C10, exercising each hypothesis-bearing conjunct at
concrete inputs. -/
theorem claim_C10_amended_witness :
    filterDiffMap [("q", DVal.prim 5)] [["*", "anything"]]
      = some [("q", DVal.prim 5)] ∧
    filterDiffMap ([] : DMap) ([] : List Path) = processEntries [] [] ∧
    (∃ p ∈ ([["k"]] : List Path), p.head? = some "k") ∧
    filterDiffMap [("x", DVal.obj [("a", DVal.prim 1)])] [["x", "*", "y"], ["z"]]
      = some [("x", DVal.obj [("a", DVal.prim 1)])] :=
  ⟨claim_C10_amended.1 [("q", DVal.prim 5)] ["anything"],
   claim_C10_amended.2.1 [] [] (by simp),
   claim_C10_amended.2.2.1 "k" [["k"]] (by simp [checkAllowed]),
   claim_C10_amended.2.2.2 [("a", DVal.prim 1)] (by simp)⟩

end Matchers
